import Mathlib

/-!
Verification development for the curve-similarity-toy repository.

The repository renders the pointwise Euclidean distance between two
polylines ("curves") over the product of their arc-length parameters.
The TypeScript UI layer (ParamSpaceView, CurveSpaceView, the Plot
component and the useComputeBounds hook) and the GLSL shaders are in the
source tree; the Rust core exposing JsCurve and Plotter is consumed
through its wasm bindings, so the curve data model is modelled here from
the specification.  Real numbers stand for the f64 values of the
program; rational numbers stand for the shader's normalized scalars.
-/

/-- A 2D point, the `IPoint \x7b x, y \x7d` of the bindings. -/
abbrev Pt : Type := ℝ × ℝ

/-- Modelled from the spec: Euclidean length of the segment from `p` to
`q` (the norm `|points[i] - points[i-1]|` of §3); the Rust curve core is
not in the source tree. -/
noncomputable def segLen (p q : Pt) : ℝ :=
  Real.sqrt ((q.1 - p.1) ^ 2 + (q.2 - p.2) ^ 2)

/-- Modelled from the spec: linear interpolation
`lerp(points[i], points[i+1], w)` used by `at` (§3). -/
def lerp (p q : Pt) (w : ℝ) : Pt :=
  (p.1 + w * (q.1 - p.1), p.2 + w * (q.2 - p.2))

/-- Modelled from the spec: the cumulative-length sequence starting at
accumulator `acc` with previous point `prev`; `cumulative[0] = 0` and
`cumulative[i] = cumulative[i-1] + |points[i] - points[i-1]|` (§3). -/
noncomputable def cumulFrom (acc : ℝ) (prev : Pt) : List Pt → List ℝ
  | [] => [acc]
  | p :: ps => acc :: cumulFrom (acc + segLen prev p) p ps

/-- Modelled from the spec: cumulative lengths of a point list, one
entry per point, first entry 0 (§3); empty for an empty curve. -/
noncomputable def cumulOfList : List Pt → List ℝ
  | [] => []
  | p :: ps => cumulFrom 0 p ps

/-- Modelled from the spec: the sampling walk of `at(s)` (§3): locate
the segment containing the remaining offset `s`, take the local
fraction `w = s / segmentLength` (0 on a zero-length segment) and
linearly interpolate; falling off the end clamps to the last point. -/
noncomputable def atAux (s : ℝ) (prev : Pt) : List Pt → Pt
  | [] => prev
  | p :: ps =>
    let d := segLen prev p
    if s ≤ d then (if d = 0 then prev else lerp prev p (s / d))
    else atAux (s - d) p ps

/-- Modelled from the spec: `at(s)` on a point list; a curve with fewer
than 2 points has no meaningful parametrization and sampling fails with
`DegenerateCurve`, modelled as `none` (§3, §4.1, §7); `s` below 0 is
clamped to 0, `s` beyond the total length is clamped to the last
point by the walk itself. -/
noncomputable def atOfList : List Pt → ℝ → Option Pt
  | [], _ => none
  | [_], _ => none
  | p :: q :: ps, s => some (atAux (max 0 s) p (q :: ps))

/-- The immutable curve value exposed to the UI as `JsCurve`: an ordered
sequence of 2D points.  Modelled from the spec (§3): the cumulative
lengths are derived from the point sequence. -/
structure JsCurve : Type where
  points : List Pt

/-- Modelled from the spec: the read-only `cumulative_lengths` view,
length equal to point count (§4.1). -/
noncomputable def JsCurve.cumulative_lengths (c : JsCurve) : List ℝ :=
  cumulOfList c.points

/-- The total length is the last cumulative length, read the way the UI
reads it: `cumulativeLengths[cumulativeLengths.length - 1]`. -/
noncomputable def JsCurve.total_length (c : JsCurve) : ℝ :=
  c.cumulative_lengths.getD (c.cumulative_lengths.length - 1) 0

/-- Modelled from the spec: `at(s) -> Point` (§4.1). -/
noncomputable def JsCurve.atParam (c : JsCurve) (s : ℝ) : Option Pt :=
  atOfList c.points s

/-- Modelled from the spec: `with_point(p)` appends `p` and returns a
new Curve; it never fails (§4.1). -/
def JsCurve.with_point (c : JsCurve) (p : Pt) : JsCurve :=
  ⟨c.points ++ [p]⟩

/-- Error taxonomy of §7 relevant to the curve data model. -/
inductive CurveError : Type where
  | IndexOutOfRange : CurveError
deriving DecidableEq

/-- Modelled from the spec: `with_replaced_point(i, p)` replaces the
point at index `i`, failing with `IndexOutOfRange` when `i` is not a
valid point index (§4.1, §8); the index comes from the JS side as a
plain number, so it is an integer here. -/
def JsCurve.with_replaced_point (c : JsCurve) (i : ℤ) (p : Pt) :
    Except CurveError JsCurve :=
  if 0 ≤ i ∧ i < (c.points.length : ℤ) then
    Except.ok ⟨c.points.set i.toNat p⟩
  else
    Except.error CurveError.IndexOutOfRange

/-- Modelled from the spec: the distance field
`evaluate(curve1, curve2, s, t) = |curve1.at(s) - curve2.at(t)|`,
defined wherever both `at()` calls succeed (§4.2). -/
noncomputable def evaluate (c1 c2 : JsCurve) (s t : ℝ) : Option ℝ :=
  match c1.atParam s, c2.atParam t with
  | some p1, some p2 => some (segLen p1 p2)
  | _, _ => none

/-- From `useComputeBounds` in the ParamSpaceView source: the total
length is the last cumulative length, the clamped minimum is
`Math.max(0, 0 - offset)` and the clamped maximum is
`Math.min(totalLength, maxPlotLength - offset)`. -/
noncomputable def useComputeBounds (cumulativeLengths : List ℝ)
    (offset maxPlotLength : ℝ) : ℝ × ℝ :=
  let totalLength := cumulativeLengths.getD (cumulativeLengths.length - 1) 0
  (max 0 (0 - offset), min totalLength (maxPlotLength - offset))

/-- Modelled from the spec: the intersection of the requested range with
the valid domain, written as an interval pair (§4.3). -/
def intervalIntersect (dom req : ℝ × ℝ) : ℝ × ℝ :=
  (max dom.1 req.1, min dom.2 req.2)

/- Basic facts about segment lengths and cumulative lengths. -/

theorem segLen_nonneg (p q : Pt) : 0 ≤ segLen p q :=
  Real.sqrt_nonneg _

theorem segLen_eq_zero_iff (p q : Pt) : segLen p q = 0 ↔ p = q := by
  unfold segLen
  rw [Real.sqrt_eq_zero (by positivity)]
  constructor
  · intro h
    have h1 : (q.1 - p.1) ^ 2 = 0 := by nlinarith [sq_nonneg (q.1 - p.1), sq_nonneg (q.2 - p.2)]
    have h2 : (q.2 - p.2) ^ 2 = 0 := by nlinarith [sq_nonneg (q.1 - p.1), sq_nonneg (q.2 - p.2)]
    have e1 : q.1 = p.1 := by
      have := pow_eq_zero_iff (n := 2) (by norm_num) |>.mp h1
      linarith [sub_eq_zero.mp this]
    have e2 : q.2 = p.2 := by
      have := pow_eq_zero_iff (n := 2) (by norm_num) |>.mp h2
      linarith [sub_eq_zero.mp this]
    exact Prod.ext e1.symm e2.symm
  · intro h
    subst h
    ring

theorem cumulFrom_length (ps : List Pt) (acc : ℝ) (prev : Pt) :
    (cumulFrom acc prev ps).length = ps.length + 1 := by
  induction ps generalizing acc prev with
  | nil => simp [cumulFrom]
  | cons p ps ih => simp [cumulFrom, ih]

theorem cumulFrom_ne_nil (ps : List Pt) (acc : ℝ) (prev : Pt) :
    cumulFrom acc prev ps ≠ [] := by
  cases ps <;> simp [cumulFrom]

theorem cumulFrom_get_zero (ps : List Pt) (acc : ℝ) (prev : Pt)
    (h : 0 < (cumulFrom acc prev ps).length) :
    (cumulFrom acc prev ps).get ⟨0, h⟩ = acc := by
  cases ps <;> simp [cumulFrom]

theorem cumulFrom_le (ps : List Pt) (acc : ℝ) (prev : Pt) (x : ℝ)
    (hx : x ∈ cumulFrom acc prev ps) : acc ≤ x := by
  induction ps generalizing acc prev with
  | nil =>
    simp only [cumulFrom, List.mem_singleton] at hx
    exact le_of_eq hx.symm
  | cons p ps ih =>
    simp only [cumulFrom, List.mem_cons] at hx
    rcases hx with rfl | hx
    · exact le_refl _
    · have := ih (acc + segLen prev p) p hx
      have := segLen_nonneg prev p
      linarith

theorem getD_last_eq_getLast (l : List ℝ) (h : l ≠ []) :
    l.getD (l.length - 1) 0 = l.getLast h := by
  have hlt : l.length - 1 < l.length := by
    cases l with
    | nil => exact absurd rfl h
    | cons a t => simp
  rw [List.getD_eq_getElem l 0 hlt, List.getLast_eq_getElem]

/-- C4: for every requested pane range and curve total length, the
clamped bounds computed by `useComputeBounds` are the intersection of
the requested range `[-offset, maxPlotLength - offset]` with
`[0, totalLength]`; in particular requesting `[-10, 1000]` against a
total length of 50 yields `[0, 50]`. -/
theorem viewport_clamped_bounds (cl : List ℝ) (off mp : ℝ) (h : cl ≠ []) :
    useComputeBounds cl off mp = intervalIntersect (0, cl.getLast h) (-off, mp - off) ∧
    useComputeBounds [(0 : ℝ), 50] 10 1010 = (0, 50) := by
  constructor
  · unfold useComputeBounds intervalIntersect
    rw [getD_last_eq_getLast cl h, zero_sub]
  · unfold useComputeBounds
    have h1 : ([(0 : ℝ), 50].getD ([(0 : ℝ), 50].length - 1) 0) = 50 := by
      norm_num [List.getD]
    rw [h1]
    have h2 : max (0 : ℝ) (0 - 10) = 0 := max_eq_left (by norm_num)
    have h3 : min (50 : ℝ) (1010 - 10) = 50 := min_eq_left (by norm_num)
    simp only []
    rw [h2, h3]

/-- Witness for C4 at the spec's concrete viewport request. -/
theorem viewport_clamped_bounds_witness :
    useComputeBounds [(0 : ℝ), 50] 10 1010 = (0, 50) :=
  (viewport_clamped_bounds [(0 : ℝ), 50] 10 1010 (by simp)).2

/-- C10: `useComputeBounds` returns exactly
`(max 0 (-offset), min totalLength (maxPlotLength - offset))`; with
nonnegative total length and nonnegative maximum plot length the pair is
well ordered exactly when `-totalLength ≤ offset ≤ maxPlotLength`, and a
pan offset beyond `maxPlotLength` inverts the bounds. -/
theorem compute_bounds_order (cl : List ℝ) (off mp : ℝ) (h : cl ≠ []) :
    useComputeBounds cl off mp = (max 0 (-off), min (cl.getLast h) (mp - off)) ∧
    (0 ≤ cl.getLast h → 0 ≤ mp →
      ((useComputeBounds cl off mp).1 ≤ (useComputeBounds cl off mp).2 ↔
        (-(cl.getLast h) ≤ off ∧ off ≤ mp))) ∧
    (0 ≤ cl.getLast h → 0 ≤ mp → mp < off →
      (useComputeBounds cl off mp).2 < (useComputeBounds cl off mp).1) := by
  have hval : useComputeBounds cl off mp
      = (max 0 (-off), min (cl.getLast h) (mp - off)) := by
    unfold useComputeBounds
    rw [getD_last_eq_getLast cl h, zero_sub]
  refine ⟨hval, ?_, ?_⟩
  · intro hL hmp
    rw [hval]
    simp only [max_le_iff, le_min_iff]
    constructor
    · rintro ⟨⟨-, h0⟩, ⟨hL', -⟩⟩
      exact ⟨by linarith, by linarith⟩
    · rintro ⟨h1, h2⟩
      exact ⟨⟨hL, by linarith⟩, ⟨by linarith, by linarith⟩⟩
  · intro hL hmp hoff
    rw [hval]
    have h1 : min (cl.getLast h) (mp - off) ≤ mp - off := min_le_right _ _
    have h2 : (0 : ℝ) ≤ max 0 (-off) := le_max_left _ _
    simp only []
    linarith

/-- Witness for C10: a pan offset of 200 against a plot length of 100
over a curve of total length 50 inverts the bounds. -/
theorem compute_bounds_order_witness :
    (useComputeBounds [(0 : ℝ), 50] 200 100).2 < (useComputeBounds [(0 : ℝ), 50] 200 100).1 :=
  (compute_bounds_order [(0 : ℝ), 50] 200 100 (by simp)).2.2
    (by norm_num [List.getLast]) (by norm_num) (by norm_num)

/- The renderer side: calls the UI issues against the Plotter and the
guards around them, from the ParamSpaceView component source. -/

/-- Calls the UI can issue against the Plotter binding, plus the
`Curve.at` sampling call, for tracing which calls a render path makes. -/
inductive PlotterCall : Type where
  | newPlotter : PlotterCall
  | updateCurves : PlotterCall
  | resize : PlotterCall
  | draw : PlotterCall
  | curveAt : PlotterCall
deriving DecidableEq

/-- From ParamSpaceView: the canvas subtree (which alone mounts the
`Plot` component, constructs the Plotter and issues `update_curves` and
`draw`) renders only when a container rect was measured and
`curves.every((curve) => curve.points.length > 1)` holds; otherwise the
view renders nothing and issues no Plotter call.  No variant of the
parameter-space view ever calls `Curve.at`. -/
def paramSpaceViewPlotterCalls (hasContainerRect : Bool) (c1 c2 : JsCurve) :
    List PlotterCall :=
  if hasContainerRect = true ∧ 1 < c1.points.length ∧ 1 < c2.points.length then
    [PlotterCall.newPlotter, PlotterCall.updateCurves, PlotterCall.draw]
  else []

theorem atOfList_isSome_of_two_le (ps : List Pt) (h : 2 ≤ ps.length) (s : ℝ) :
    (atOfList ps s).isSome := by
  match ps with
  | [] => simp at h
  | [_] => simp at h
  | p :: q :: rest => simp [atOfList]

/-- C6: whenever either curve has fewer than 2 points the parameter
space view issues no Plotter call at all (no Plotter construction, no
`update_curves`, no `draw`); the render path never calls `Curve.at`;
and whenever the render path issues any call, sampling either curve at
any parameter succeeds, so the `DegenerateCurve` failure is unreachable
from rendering. -/
theorem degenerate_curve_unreachable (hr : Bool) (c1 c2 : JsCurve) :
    ((c1.points.length < 2 ∨ c2.points.length < 2) →
      paramSpaceViewPlotterCalls hr c1 c2 = []) ∧
    PlotterCall.curveAt ∉ paramSpaceViewPlotterCalls hr c1 c2 ∧
    (paramSpaceViewPlotterCalls hr c1 c2 ≠ [] →
      ∀ s t : ℝ, (c1.atParam s).isSome ∧ (c2.atParam t).isSome) := by
  refine ⟨?_, ?_, ?_⟩
  · intro hdeg
    unfold paramSpaceViewPlotterCalls
    rw [if_neg]
    rintro ⟨-, h1, h2⟩
    omega
  · unfold paramSpaceViewPlotterCalls
    split
    · simp
    · simp
  · intro hne s t
    unfold paramSpaceViewPlotterCalls at hne
    rcases Decidable.em
        (hr = true ∧ 1 < c1.points.length ∧ 1 < c2.points.length) with hc | hc
    · obtain ⟨-, h1, h2⟩ := hc
      exact ⟨atOfList_isSome_of_two_le c1.points (by omega) s,
             atOfList_isSome_of_two_le c2.points (by omega) t⟩
    · rw [if_neg hc] at hne
      exact absurd rfl hne

/-- Witness for C6: with an empty first curve nothing at all is
rendered. -/
theorem degenerate_curve_unreachable_witness :
    paramSpaceViewPlotterCalls true ⟨[]⟩ ⟨[((0 : ℝ), 0), (1, 0)]⟩ = [] :=
  (degenerate_curve_unreachable true ⟨[]⟩ ⟨[((0 : ℝ), 0), (1, 0)]⟩).1
    (Or.inl (by simp))

/- The Plot component's effect structure, from the ParamSpaceView
source: a mount effect that acquires the GPU context and constructs the
Plotter, and a drawing effect that returns early while `plotter` is
still null and otherwise issues `update_curves`, `resize` and `draw`. -/

/-- Events affecting the Plot component's `plotter` state. -/
inductive PlotEvent : Type where
  | acquireContext : PlotEvent
  | runDrawEffect : PlotEvent
deriving DecidableEq

/-- The drawing effect body: `if (plotter === null) return;` then
`update_curves`, `resize`, `draw`. -/
def drawEffectCalls (plotter : Option Unit) : List PlotterCall :=
  match plotter with
  | none => []
  | some _ => [PlotterCall.updateCurves, PlotterCall.resize, PlotterCall.draw]

/-- One step of the Plot component: acquiring the context constructs the
Plotter and stores it; running the drawing effect leaves the state
unchanged and issues the effect's calls. -/
def plotStep (st : Option Unit) : PlotEvent → Option Unit × List PlotterCall
  | PlotEvent.acquireContext => (some (), [PlotterCall.newPlotter])
  | PlotEvent.runDrawEffect => (st, drawEffectCalls st)

/-- All Plotter calls issued by a sequence of events starting from a
given `plotter` state. -/
def plotRun (st : Option Unit) : List PlotEvent → List PlotterCall
  | [] => []
  | e :: es => (plotStep st e).2 ++ plotRun (plotStep st e).1 es

theorem plotRun_none_of_no_acquire (evs : List PlotEvent)
    (h : PlotEvent.acquireContext ∉ evs) : plotRun none evs = [] := by
  induction evs with
  | nil => rfl
  | cons e es ih =>
    simp only [List.mem_cons, not_or] at h
    obtain ⟨he, hes⟩ := h
    cases e with
    | acquireContext => exact absurd rfl he
    | runDrawEffect =>
      simp only [plotRun, plotStep, drawEffectCalls, List.nil_append]
      exact ih hes

/-- C9: the drawing effect issues no call while the plotter is still
null, so starting uninitialized, a run that never acquires a context
issues no call at all, and any run that reaches a `draw` call must have
acquired the context (constructed the Plotter) beforehand. -/
theorem draw_only_after_setup :
    drawEffectCalls none = [] ∧
    (∀ evs : List PlotEvent, PlotEvent.acquireContext ∉ evs →
      plotRun none evs = []) ∧
    (∀ evs : List PlotEvent, PlotterCall.draw ∈ plotRun none evs →
      PlotEvent.acquireContext ∈ evs) := by
  refine ⟨rfl, plotRun_none_of_no_acquire, ?_⟩
  intro evs hdraw
  by_contra hno
  rw [plotRun_none_of_no_acquire evs hno] at hdraw
  exact absurd hdraw (List.not_mem_nil _)

/-- Witness for C9 on a concrete event sequence: a run with only the
drawing effect issues nothing, and the run that acquires first and then
draws indeed contains the acquisition. -/
theorem draw_only_after_setup_witness :
    plotRun none [PlotEvent.runDrawEffect] = [] ∧
    PlotEvent.acquireContext ∈ [PlotEvent.acquireContext, PlotEvent.runDrawEffect] :=
  ⟨draw_only_after_setup.2.1 [PlotEvent.runDrawEffect] (by decide),
   draw_only_after_setup.2.2 [PlotEvent.acquireContext, PlotEvent.runDrawEffect]
     (by decide)⟩

/- Structural updates: with_point and with_replaced_point. -/

theorem cumulFrom_append_take (ps : List Pt) (acc : ℝ) (prev : Pt) (p : Pt) :
    (cumulFrom acc prev (ps ++ [p])).take (ps.length + 1) = cumulFrom acc prev ps := by
  induction ps generalizing acc prev with
  | nil => simp [cumulFrom]
  | cons q ps ih =>
    simp only [List.cons_append, cumulFrom, List.length_cons, List.take_succ_cons]
    congr 1
    exact ih _ _

/-- C8: `with_point(p)` never fails, appends `p` as the last point of a
new curve of one more point, and leaves the original value untouched:
the new cumulative lengths even extend the old ones, whose entries are
all preserved as a prefix. -/
theorem with_point_appends (c : JsCurve) (p : Pt) :
    (c.with_point p).points = c.points ++ [p] ∧
    (c.with_point p).points.length = c.points.length + 1 ∧
    (c.with_point p).points.getLast? = some p ∧
    (c.with_point p).cumulative_lengths.take c.points.length = c.cumulative_lengths := by
  refine ⟨rfl, by simp [JsCurve.with_point], by simp [JsCurve.with_point], ?_⟩
  obtain ⟨pts⟩ := c
  cases pts with
  | nil => simp [JsCurve.with_point, JsCurve.cumulative_lengths, cumulOfList]
  | cons q ps =>
    show (cumulOfList ((q :: ps) ++ [p])).take (ps.length + 1) = cumulOfList (q :: ps)
    simp only [List.cons_append, cumulOfList]
    exact cumulFrom_append_take ps 0 q p

/-- C7: `with_replaced_point(i, p)` succeeds exactly when `i` is a valid
point index; `-1` and the point count both fail with `IndexOutOfRange`;
a valid index returns a new curve with point `i` replaced by `p`. -/
theorem with_replaced_point_index_check (c : JsCurve) (i : ℤ) (p : Pt) :
    ((∃ c', c.with_replaced_point i p = Except.ok c') ↔
      0 ≤ i ∧ i < (c.points.length : ℤ)) ∧
    c.with_replaced_point (-1) p = Except.error CurveError.IndexOutOfRange ∧
    c.with_replaced_point (c.points.length : ℤ) p
      = Except.error CurveError.IndexOutOfRange ∧
    (∀ _ : 0 ≤ i ∧ i < (c.points.length : ℤ),
      c.with_replaced_point i p = Except.ok ⟨c.points.set i.toNat p⟩) := by
  unfold JsCurve.with_replaced_point
  refine ⟨?_, ?_, ?_, ?_⟩
  · constructor
    · rintro ⟨c', hc'⟩
      by_contra hc
      rw [if_neg hc] at hc'
      exact Except.noConfusion hc'
    · intro hc
      rw [if_pos hc]
      exact ⟨_, rfl⟩
  · rw [if_neg]
    rintro ⟨h0, -⟩
    omega
  · rw [if_neg]
    rintro ⟨-, hlt⟩
    omega
  · intro hc
    rw [if_pos hc]

/-- Witness for C7: replacing point 1 of a two-point curve. -/
theorem with_replaced_point_index_check_witness :
    (JsCurve.mk [((0 : ℝ), 0), (1, 0)]).with_replaced_point 1 (2, 3)
      = Except.ok ⟨[((0 : ℝ), 0), (2, 3)]⟩ := by
  have h := (with_replaced_point_index_check ⟨[((0 : ℝ), 0), (1, 0)]⟩ 1 (2, 3)).2.2.2
    ⟨by norm_num, by simp⟩
  rw [h]
  rfl

/- The step equation and monotonicity of the cumulative lengths. -/

theorem cumulFrom_get_succ (ps : List Pt) (acc : ℝ) (prev : Pt) (i : ℕ)
    (h : i + 1 < (cumulFrom acc prev ps).length)
    (h' : i < (cumulFrom acc prev ps).length)
    (hp : i < (prev :: ps).length) (hp' : i + 1 < (prev :: ps).length) :
    (cumulFrom acc prev ps).get ⟨i + 1, h⟩ =
      (cumulFrom acc prev ps).get ⟨i, h'⟩ +
        segLen ((prev :: ps).get ⟨i, hp⟩) ((prev :: ps).get ⟨i + 1, hp'⟩) := by
  induction ps generalizing acc prev i with
  | nil =>
    simp only [cumulFrom_length, List.length_nil] at h
    omega
  | cons p ps ih =>
    cases i with
    | zero =>
      simp only [cumulFrom, List.get_cons_succ]
      rw [cumulFrom_get_zero]
      rfl
    | succ j =>
      have hb : j + 1 < (cumulFrom (acc + segLen prev p) p ps).length := by
        simp only [cumulFrom, List.length_cons] at h
        omega
      have hb' : j < (cumulFrom (acc + segLen prev p) p ps).length := by omega
      have hq : j < (p :: ps).length := by
        simp only [List.length_cons] at hp ⊢
        omega
      have hq' : j + 1 < (p :: ps).length := by
        simp only [List.length_cons] at hp' ⊢
        omega
      simp only [cumulFrom, List.get_cons_succ]
      exact ih (acc + segLen prev p) p j hb hb' hq hq'

theorem cumulFrom_mono (ps : List Pt) (acc : ℝ) (prev : Pt) (i : ℕ)
    (h : i + 1 < (cumulFrom acc prev ps).length)
    (h' : i < (cumulFrom acc prev ps).length) :
    (cumulFrom acc prev ps).get ⟨i, h'⟩ ≤ (cumulFrom acc prev ps).get ⟨i + 1, h⟩ := by
  have hp : i < (prev :: ps).length := by
    rw [cumulFrom_length] at h
    simp only [List.length_cons]
    omega
  have hp' : i + 1 < (prev :: ps).length := by
    rw [cumulFrom_length] at h
    simp only [List.length_cons]
    omega
  rw [cumulFrom_get_succ ps acc prev i h h' hp hp']
  have := segLen_nonneg ((prev :: ps).get ⟨i, hp⟩) ((prev :: ps).get ⟨i + 1, hp'⟩)
  linarith

/-- The invariant of the derived cumulative-length sequence (§3): same
length as the point sequence, first entry 0, adjacent entries monotone
non-decreasing, and each later entry is the previous entry plus the
length of the connecting segment. -/
def cumulInvariant (c : JsCurve) : Prop :=
  c.cumulative_lengths.length = c.points.length ∧
  (∀ h : 0 < c.cumulative_lengths.length, c.cumulative_lengths.get ⟨0, h⟩ = 0) ∧
  (∀ i, ∀ h : i + 1 < c.cumulative_lengths.length,
    c.cumulative_lengths.get ⟨i, by omega⟩ ≤ c.cumulative_lengths.get ⟨i + 1, h⟩) ∧
  (∀ i, ∀ h : i + 1 < c.points.length, ∀ h' : i + 1 < c.cumulative_lengths.length,
    c.cumulative_lengths.get ⟨i + 1, h'⟩ =
      c.cumulative_lengths.get ⟨i, by omega⟩ +
        segLen (c.points.get ⟨i, by omega⟩) (c.points.get ⟨i + 1, h⟩))

theorem cumulInvariant_all (c : JsCurve) : cumulInvariant c := by
  obtain ⟨pts⟩ := c
  cases pts with
  | nil =>
    refine ⟨by simp [JsCurve.cumulative_lengths, cumulOfList], ?_, ?_, ?_⟩
    · intro h
      simp [JsCurve.cumulative_lengths, cumulOfList] at h
    · intro i h
      simp [JsCurve.cumulative_lengths, cumulOfList] at h
    · intro i h
      simp at h
  | cons p ps =>
    have hcl : (JsCurve.mk (p :: ps)).cumulative_lengths = cumulFrom 0 p ps := rfl
    refine ⟨?_, ?_, ?_, ?_⟩
    · rw [hcl, cumulFrom_length]
      simp
    · intro h
      exact cumulFrom_get_zero ps 0 p _
    · intro i h
      exact cumulFrom_mono ps 0 p i _ _
    · intro i h h'
      have h2 : i + 1 < (cumulFrom 0 p ps).length := h'
      have hp : i < (p :: ps).length := by
        simp only [List.length_cons] at h ⊢
        omega
      exact cumulFrom_get_succ ps 0 p i _ _ hp h

/-- C3: every curve — as constructed, after any `with_point`, and after
any successful `with_replaced_point` — satisfies the cumulative-length
invariant: equal length, zero head, monotone adjacent entries, and the
step equation `cumulative[i+1] = cumulative[i] + |points[i+1] - points[i]|`. -/
theorem cumulative_lengths_invariant (c : JsCurve) :
    cumulInvariant c ∧
    (∀ p, cumulInvariant (c.with_point p)) ∧
    (∀ (i : ℤ) (p : Pt) (c' : JsCurve),
      c.with_replaced_point i p = Except.ok c' → cumulInvariant c') :=
  ⟨cumulInvariant_all c, fun p => cumulInvariant_all (c.with_point p),
   fun _ _ c' _ => cumulInvariant_all c'⟩

/-- Witness for C3 on concrete curves, including one obtained through
`with_replaced_point`. -/
theorem cumulative_lengths_invariant_witness :
    cumulInvariant (JsCurve.mk [((0 : ℝ), 0), (3, 0)]) ∧
    cumulInvariant ((JsCurve.mk [((0 : ℝ), 0), (3, 0)]).with_point (5, 5)) ∧
    cumulInvariant (JsCurve.mk [((0 : ℝ), 0), (9, 9)]) := by
  obtain ⟨h1, h2, h3⟩ := cumulative_lengths_invariant (JsCurve.mk [((0 : ℝ), 0), (3, 0)])
  exact ⟨h1, h2 (5, 5), h3 1 (9, 9) ⟨[((0 : ℝ), 0), (9, 9)]⟩ rfl⟩

/- Sampling at a stored cumulative length recovers the stored point. -/

theorem cumulFrom_get_eq_acc (ps : List Pt) (acc : ℝ) (prev : Pt) (i : ℕ)
    (h : i < (cumulFrom acc prev ps).length) (hp : i < (prev :: ps).length)
    (heq : (cumulFrom acc prev ps).get ⟨i, h⟩ = acc) :
    (prev :: ps).get ⟨i, hp⟩ = prev := by
  induction ps generalizing acc prev i with
  | nil =>
    simp only [cumulFrom_length, List.length_nil] at h
    interval_cases i
    rfl
  | cons p ps ih =>
    cases i with
    | zero => rfl
    | succ j =>
      have hb : j < (cumulFrom (acc + segLen prev p) p ps).length := by
        simp only [cumulFrom, List.length_cons] at h
        omega
      have hq : j < (p :: ps).length := by
        simp only [List.length_cons] at hp ⊢
        omega
      have hmem : (cumulFrom (acc + segLen prev p) p ps).get ⟨j, hb⟩
          ∈ cumulFrom (acc + segLen prev p) p ps := List.get_mem _ _ _
      have hge := cumulFrom_le ps (acc + segLen prev p) p _ hmem
      have heq' : (cumulFrom (acc + segLen prev p) p ps).get ⟨j, hb⟩ = acc := by
        simpa only [cumulFrom, List.get_cons_succ] using heq
      have hd0 : segLen prev p = 0 := by
        have hnn := segLen_nonneg prev p
        rw [heq'] at hge
        linarith
      have hpp : prev = p := (segLen_eq_zero_iff prev p).mp hd0
      have heq2 : (cumulFrom (acc + segLen prev p) p ps).get ⟨j, hb⟩
          = acc + segLen prev p := by
        rw [heq', hd0, add_zero]
      have := ih (acc + segLen prev p) p j hb hq heq2
      simpa only [List.get_cons_succ, hpp] using this

theorem atAux_zero (ps : List Pt) (prev : Pt) : atAux 0 prev ps = prev := by
  cases ps with
  | nil => rfl
  | cons p ps =>
    simp only [atAux]
    rw [if_pos (segLen_nonneg prev p)]
    by_cases hd : segLen prev p = 0
    · rw [if_pos hd]
    · rw [if_neg hd]
      unfold lerp
      rw [zero_div]
      simp

theorem atAux_cumulFrom_get (ps : List Pt) (prev : Pt) (acc : ℝ) (i : ℕ)
    (h : i < (cumulFrom acc prev ps).length) (hp : i < (prev :: ps).length) :
    atAux ((cumulFrom acc prev ps).get ⟨i, h⟩ - acc) prev ps
      = (prev :: ps).get ⟨i, hp⟩ := by
  induction ps generalizing prev acc i with
  | nil =>
    simp only [cumulFrom_length, List.length_nil] at h
    interval_cases i
    rw [cumulFrom_get_zero, sub_self]
    rfl
  | cons p ps ih =>
    cases i with
    | zero =>
      rw [cumulFrom_get_zero, sub_self, atAux_zero]
      rfl
    | succ j =>
      have hb : j < (cumulFrom (acc + segLen prev p) p ps).length := by
        simp only [cumulFrom, List.length_cons] at h
        omega
      have hq : j < (p :: ps).length := by
        simp only [List.length_cons] at hp ⊢
        omega
      set e := (cumulFrom (acc + segLen prev p) p ps).get ⟨j, hb⟩ with he
      have hgetc : (cumulFrom acc prev (p :: ps)).get ⟨j + 1, h⟩ = e := by
        simp only [cumulFrom, List.get_cons_succ, he]
      have hmem : e ∈ cumulFrom (acc + segLen prev p) p ps := by
        rw [he]
        exact List.get_mem _ _ _
      have hge : acc + segLen prev p ≤ e := cumulFrom_le ps _ p e hmem
      have hnn := segLen_nonneg prev p
      rw [hgetc]
      have hgoal : (prev :: p :: ps).get ⟨j + 1, hp⟩ = (p :: ps).get ⟨j, hq⟩ := by
        simp only [List.get_cons_succ]
      rw [hgoal]
      simp only [atAux]
      by_cases hle : e - acc ≤ segLen prev p
      · have hee : e = acc + segLen prev p := by linarith
        rw [if_pos hle]
        have htarget : (p :: ps).get ⟨j, hq⟩ = p := by
          refine cumulFrom_get_eq_acc ps (acc + segLen prev p) p j hb hq ?_
          rw [← he, ← hee]
        by_cases hd : segLen prev p = 0
        · rw [if_pos hd, htarget]
          exact (segLen_eq_zero_iff prev p).mp hd
        · rw [if_neg hd]
          have hw : (e - acc) / segLen prev p = 1 := by
            rw [hee]
            field_simp
          rw [hw, htarget]
          unfold lerp
          have h1 : prev.1 + 1 * (p.1 - prev.1) = p.1 := by ring
          have h2 : prev.2 + 1 * (p.2 - prev.2) = p.2 := by ring
          rw [h1, h2]
      · rw [if_neg hle]
        have harg : e - acc - segLen prev p = e - (acc + segLen prev p) := by ring
        rw [harg]
        exact ih p (acc + segLen prev p) j hb hq

/-- C2: on a curve with at least 2 points, sampling at the i-th stored
cumulative length recovers the i-th original point exactly; in
particular `at(0)` is the first point and `at(total_length)` is the last
point, for any ordering of points. -/
theorem at_cumulative_roundtrip (c : JsCurve) (h2 : 2 ≤ c.points.length) :
    (∀ (i : ℕ) (hp : i < c.points.length) (hc : i < c.cumulative_lengths.length),
      c.atParam (c.cumulative_lengths.get ⟨i, hc⟩) = some (c.points.get ⟨i, hp⟩)) ∧
    (∀ hp : 0 < c.points.length, c.atParam 0 = some (c.points.get ⟨0, hp⟩)) ∧
    (∀ hp : c.points.length - 1 < c.points.length,
      c.atParam c.total_length
        = some (c.points.get ⟨c.points.length - 1, hp⟩)) := by
  obtain ⟨pts⟩ := c
  rcases pts with _ | ⟨p, _ | ⟨q, rest⟩⟩
  · simp at h2
  · simp at h2
  · simp only [JsCurve.atParam, JsCurve.cumulative_lengths, cumulOfList]
    have hmain : ∀ (i : ℕ) (hp : i < (p :: q :: rest).length)
        (hc : i < (cumulFrom 0 p (q :: rest)).length),
        atOfList (p :: q :: rest) ((cumulFrom 0 p (q :: rest)).get ⟨i, hc⟩)
          = some ((p :: q :: rest).get ⟨i, hp⟩) := by
      intro i hp hc
      have hx0 : 0 ≤ (cumulFrom 0 p (q :: rest)).get ⟨i, hc⟩ :=
        cumulFrom_le _ 0 p _ (List.get_mem _ _ _)
      simp only [atOfList]
      rw [max_eq_right hx0]
      have hwalk := atAux_cumulFrom_get (q :: rest) p 0 i hc hp
      rw [sub_zero] at hwalk
      rw [hwalk]
    refine ⟨hmain, ?_, ?_⟩
    · intro hp
      have h0c : 0 < (cumulFrom 0 p (q :: rest)).length := by
        rw [cumulFrom_length]
        omega
      have hinst := hmain 0 hp h0c
      rwa [cumulFrom_get_zero] at hinst
    · intro hp
      have hlen : (cumulFrom 0 p (q :: rest)).length = (p :: q :: rest).length := by
        rw [cumulFrom_length]
        simp
      have hlt : (cumulFrom 0 p (q :: rest)).length - 1
          < (cumulFrom 0 p (q :: rest)).length := by
        rw [cumulFrom_length]
        omega
      have hc' : (p :: q :: rest).length - 1 < (cumulFrom 0 p (q :: rest)).length := by
        rw [hlen]
        simp only [List.length_cons]
        omega
      have hgetD : (JsCurve.mk (p :: q :: rest)).total_length
          = (cumulFrom 0 p (q :: rest)).get
              ⟨(cumulFrom 0 p (q :: rest)).length - 1, hlt⟩ := by
        show (cumulFrom 0 p (q :: rest)).getD
            ((cumulFrom 0 p (q :: rest)).length - 1) 0 = _
        rw [List.getD_eq_getElem _ 0 hlt]
        rfl
      have hfin : (⟨(cumulFrom 0 p (q :: rest)).length - 1, hlt⟩
            : Fin (cumulFrom 0 p (q :: rest)).length)
          = ⟨(p :: q :: rest).length - 1, hc'⟩ :=
        Fin.ext (congrArg (fun n => n - 1) hlen)
      have hval : (cumulFrom 0 p (q :: rest)).get
            ⟨(cumulFrom 0 p (q :: rest)).length - 1, hlt⟩
          = (cumulFrom 0 p (q :: rest)).get
            ⟨(p :: q :: rest).length - 1, hc'⟩ :=
        congrArg (List.get _) hfin
      rw [hgetD, hval]
      exact hmain ((p :: q :: rest).length - 1) hp hc'

/-- Witness for C2: sampling the three-point example curve of the spec
at parameter 0 recovers its first point. -/
theorem at_cumulative_roundtrip_witness :
    (JsCurve.mk [((0 : ℝ), 0), (3, 0), (3, 4)]).atParam 0 = some ((0 : ℝ), 0) := by
  have h := (at_cumulative_roundtrip ⟨[((0 : ℝ), 0), (3, 0), (3, 4)]⟩
    (by simp)).2.1 (by simp)
  rw [h]
  rfl

/-- C1: for curves of at least 2 points and parameters inside the valid
domain, the distance field is exactly the Euclidean distance between the
two sampled points, and on the spec's concrete pair of horizontal
two-point curves, `evaluate(c1, c2, 5, 5) = 5`. -/
theorem distance_field_eval (c1 c2 : JsCurve) (s t : ℝ)
    (h1 : 2 ≤ c1.points.length) (h2 : 2 ≤ c2.points.length)
    (hs0 : 0 ≤ s) (hs1 : s ≤ c1.total_length)
    (ht0 : 0 ≤ t) (ht1 : t ≤ c2.total_length) :
    (∃ p1 p2, c1.atParam s = some p1 ∧ c2.atParam t = some p2 ∧
      evaluate c1 c2 s t = some (segLen p1 p2)) ∧
    evaluate ⟨[((0 : ℝ), 0), (10, 0)]⟩ ⟨[((0 : ℝ), 5), (10, 5)]⟩ 5 5 = some 5 := by
  constructor
  · have ha : (c1.atParam s).isSome := atOfList_isSome_of_two_le c1.points h1 s
    have hb : (c2.atParam t).isSome := atOfList_isSome_of_two_le c2.points h2 t
    obtain ⟨p1, hp1⟩ := Option.isSome_iff_exists.mp ha
    obtain ⟨p2, hp2⟩ := Option.isSome_iff_exists.mp hb
    refine ⟨p1, p2, hp1, hp2, ?_⟩
    unfold evaluate
    rw [hp1, hp2]
  · have hseg1 : segLen ((0 : ℝ), (0 : ℝ)) (10, 0) = 10 := by
      show Real.sqrt (((10 : ℝ) - 0) ^ 2 + ((0 : ℝ) - 0) ^ 2) = 10
      rw [show ((10 : ℝ) - 0) ^ 2 + ((0 : ℝ) - 0) ^ 2 = 10 ^ 2 by norm_num]
      exact Real.sqrt_sq (by norm_num)
    have hseg2 : segLen ((0 : ℝ), (5 : ℝ)) (10, 5) = 10 := by
      show Real.sqrt (((10 : ℝ) - 0) ^ 2 + ((5 : ℝ) - 5) ^ 2) = 10
      rw [show ((10 : ℝ) - 0) ^ 2 + ((5 : ℝ) - 5) ^ 2 = 10 ^ 2 by norm_num]
      exact Real.sqrt_sq (by norm_num)
    have hsegd : segLen ((5 : ℝ), (0 : ℝ)) (5, 5) = 5 := by
      show Real.sqrt (((5 : ℝ) - 5) ^ 2 + ((5 : ℝ) - 0) ^ 2) = 5
      rw [show ((5 : ℝ) - 5) ^ 2 + ((5 : ℝ) - 0) ^ 2 = 5 ^ 2 by norm_num]
      exact Real.sqrt_sq (by norm_num)
    have hat1 : JsCurve.atParam ⟨[((0 : ℝ), 0), (10, 0)]⟩ 5 = some ((5 : ℝ), 0) := by
      show atOfList [((0 : ℝ), 0), (10, 0)] 5 = some ((5 : ℝ), 0)
      simp only [atOfList, atAux]
      rw [max_eq_right (by norm_num : (0 : ℝ) ≤ 5), hseg1]
      rw [if_pos (by norm_num : (5 : ℝ) ≤ 10), if_neg (by norm_num : ¬((10 : ℝ) = 0))]
      unfold lerp
      norm_num
    have hat2 : JsCurve.atParam ⟨[((0 : ℝ), 5), (10, 5)]⟩ 5 = some ((5 : ℝ), 5) := by
      show atOfList [((0 : ℝ), 5), (10, 5)] 5 = some ((5 : ℝ), 5)
      simp only [atOfList, atAux]
      rw [max_eq_right (by norm_num : (0 : ℝ) ≤ 5), hseg2]
      rw [if_pos (by norm_num : (5 : ℝ) ≤ 10), if_neg (by norm_num : ¬((10 : ℝ) = 0))]
      unfold lerp
      norm_num
    unfold evaluate
    rw [hat1, hat2]
    show some (segLen ((5 : ℝ), (0 : ℝ)) (5, 5)) = some 5
    rw [hsegd]

/-- Witness for C1 on the spec's concrete curve pair, which lie 5 apart
everywhere. -/
theorem distance_field_eval_witness :
    evaluate ⟨[((0 : ℝ), 0), (10, 0)]⟩ ⟨[((0 : ℝ), 5), (10, 5)]⟩ 5 5 = some 5 := by
  have htot1 : (JsCurve.mk [((0 : ℝ), 0), (10, 0)]).total_length = 10 := by
    show (cumulFrom 0 ((0 : ℝ), 0) [(10, 0)]).getD
      ((cumulFrom 0 ((0 : ℝ), 0) [(10, 0)]).length - 1) 0 = 10
    simp only [cumulFrom, List.length_cons, List.length_singleton]
    show (0 : ℝ) + segLen ((0 : ℝ), (0 : ℝ)) (10, 0) = 10
    rw [show segLen ((0 : ℝ), (0 : ℝ)) (10, 0)
        = Real.sqrt (((10 : ℝ) - 0) ^ 2 + ((0 : ℝ) - 0) ^ 2) from rfl]
    rw [show ((10 : ℝ) - 0) ^ 2 + ((0 : ℝ) - 0) ^ 2 = 10 ^ 2 by norm_num]
    rw [Real.sqrt_sq (by norm_num : (0 : ℝ) ≤ 10)]
    norm_num
  have htot2 : (JsCurve.mk [((0 : ℝ), 5), (10, 5)]).total_length = 10 := by
    show (cumulFrom 0 ((0 : ℝ), 5) [(10, 5)]).getD
      ((cumulFrom 0 ((0 : ℝ), 5) [(10, 5)]).length - 1) 0 = 10
    simp only [cumulFrom, List.length_cons, List.length_singleton]
    show (0 : ℝ) + segLen ((0 : ℝ), (5 : ℝ)) (10, 5) = 10
    rw [show segLen ((0 : ℝ), (5 : ℝ)) (10, 5)
        = Real.sqrt (((10 : ℝ) - 0) ^ 2 + ((5 : ℝ) - 5) ^ 2) from rfl]
    rw [show ((10 : ℝ) - 0) ^ 2 + ((5 : ℝ) - 5) ^ 2 = 10 ^ 2 by norm_num]
    rw [Real.sqrt_sq (by norm_num : (0 : ℝ) ≤ 10)]
    norm_num
  exact (distance_field_eval ⟨[((0 : ℝ), 0), (10, 0)]⟩ ⟨[((0 : ℝ), 5), (10, 5)]⟩ 5 5
    (by simp) (by simp) (by norm_num) (by rw [htot1]; norm_num)
    (by norm_num) (by rw [htot2]; norm_num)).2

/- The surface shader's color map, from src/rs_lib/src/shader.vert: the
vertex shader walks `u_color_map` from index 1 and, at the first stop
whose threshold (the `.w` component) exceeds the normalized value,
mixes the previous and current stop colors with weight
`(value - prev.w) / (cur.w - prev.w)`; if no stop's threshold exceeds
the value, `color` is never assigned.  Rationals model the shader's
scalars; `none` models the unassigned color. -/

/-- An RGB color triple. -/
abbrev RGB : Type := ℚ × ℚ × ℚ

/-- The GLSL `mix(x, y, a) = x + a * (y - x)`, componentwise and
unclamped. -/
def mixRGB (a b : RGB) (w : ℚ) : RGB :=
  (a.1 + w * (b.1 - a.1), a.2.1 + w * (b.2.1 - a.2.1), a.2.2 + w * (b.2.2 - a.2.2))

/-- A color-map stop: RGB color and threshold (the vec4's `.w`). -/
abbrev ColorStop : Type := RGB × ℚ

/-- The shader's loop from index 1 onward, carrying the previous stop. -/
def shaderLoop (prev : ColorStop) (v : ℚ) : List ColorStop → Option RGB
  | [] => none
  | s :: rest =>
    if v < s.2 then
      some (mixRGB prev.1 s.1 ((v - prev.2) / (s.2 - prev.2)))
    else shaderLoop s v rest

/-- The color computed by the shader's `main` for a normalized value:
the loop starts at index 1 with stop 0 as the previous stop. -/
def shaderMainColor (cmap : List ColorStop) (v : ℚ) : Option RGB :=
  match cmap with
  | [] => none
  | s0 :: rest => shaderLoop s0 v rest

/-- C5 counterexample: for the valid two-stop map with thresholds 1/2
and 1, a value below the first threshold is extrapolated to a color
different from the first stop's color, and a value at the last
threshold leaves the color unassigned instead of clamping to the last
stop's color. -/
theorem color_map_clamp_counterexample :
    shaderMainColor [(((0 : ℚ), 0, 0), (1 : ℚ) / 2), (((1 : ℚ), 1, 1), 1)] 0
      = some ((-1 : ℚ), -1, -1) ∧
    shaderMainColor [(((0 : ℚ), 0, 0), (1 : ℚ) / 2), (((1 : ℚ), 1, 1), 1)] 0
      ≠ some (((0 : ℚ), 0, 0)) ∧
    shaderMainColor [(((0 : ℚ), 0, 0), (1 : ℚ) / 2), (((1 : ℚ), 1, 1), 1)] 1
      = none := by
  have h1 : shaderMainColor [(((0 : ℚ), 0, 0), (1 : ℚ) / 2), (((1 : ℚ), 1, 1), 1)] 0
      = some ((-1 : ℚ), -1, -1) := by
    show (if (0 : ℚ) < 1 then
        some (mixRGB ((0 : ℚ), 0, 0) ((1 : ℚ), 1, 1) (((0 : ℚ) - 1 / 2) / (1 - 1 / 2)))
      else shaderLoop (((1 : ℚ), 1, 1), 1) 0 []) = some ((-1 : ℚ), -1, -1)
    rw [if_pos (by norm_num : (0 : ℚ) < 1)]
    unfold mixRGB
    norm_num
  refine ⟨h1, ?_, ?_⟩
  · rw [h1]
    simp only [ne_eq, Option.some.injEq, Prod.mk.injEq]
    norm_num
  · show (if (1 : ℚ) < 1 then
        some (mixRGB ((0 : ℚ), 0, 0) ((1 : ℚ), 1, 1) (((1 : ℚ) - 1 / 2) / (1 - 1 / 2)))
      else shaderLoop (((1 : ℚ), 1, 1), 1) 1 []) = none
    rw [if_neg (by norm_num : ¬ ((1 : ℚ) < 1))]
    rfl

theorem shaderLoop_none (rest : List ColorStop) (prev : ColorStop) (v : ℚ)
    (h : ∀ s ∈ rest, s.2 ≤ v) : shaderLoop prev v rest = none := by
  induction rest generalizing prev with
  | nil => rfl
  | cons s rest' ih =>
    simp only [shaderLoop]
    rw [if_neg (not_lt.mpr (h s (List.mem_cons_self s rest')))]
    exact ih s fun x hx => h x (List.mem_cons_of_mem s hx)

theorem pairwise_le_getLast (l : List ColorStop) (h : l ≠ [])
    (hmono : List.Pairwise (fun a b => a.2 ≤ b.2) l) :
    ∀ x ∈ l, x.2 ≤ (l.getLast h).2 := by
  induction l with
  | nil => exact absurd rfl h
  | cons a l ih =>
    intro x hx
    cases l with
    | nil =>
      simp only [List.mem_singleton] at hx
      subst hx
      exact le_refl _
    | cons b l' =>
      rw [List.getLast_cons (by simp : b :: l' ≠ [])]
      obtain ⟨hhead, htail⟩ := List.pairwise_cons.mp hmono
      rcases List.mem_cons.mp hx with rfl | hx'
      · exact hhead _ (List.getLast_mem _)
      · exact ih (by simp) htail x hx'

theorem shaderLoop_bracket (rest : List ColorStop) (prev : ColorStop) (v : ℚ)
    (hmono : List.Pairwise (fun a b => a.2 ≤ b.2) (prev :: rest))
    (i : ℕ) (h : i + 1 < (prev :: rest).length) (h' : i < (prev :: rest).length)
    (hlo : ((prev :: rest).get ⟨i, h'⟩).2 ≤ v)
    (hhi : v < ((prev :: rest).get ⟨i + 1, h⟩).2) :
    shaderLoop prev v rest
      = some (mixRGB ((prev :: rest).get ⟨i, h'⟩).1
          ((prev :: rest).get ⟨i + 1, h⟩).1
          ((v - ((prev :: rest).get ⟨i, h'⟩).2)
            / (((prev :: rest).get ⟨i + 1, h⟩).2
              - ((prev :: rest).get ⟨i, h'⟩).2))) := by
  induction rest generalizing prev i with
  | nil => simp at h
  | cons s rest' ih =>
    cases i with
    | zero =>
      have hvs : v < s.2 := by
        simpa only [List.get_cons_succ, List.get_cons_zero] using hhi
      simp only [shaderLoop]
      rw [if_pos hvs]
      rfl
    | succ j =>
      have hb : j + 1 < (s :: rest').length := by
        simpa only [List.length_cons] using Nat.lt_of_succ_lt_succ h
      have hb' : j < (s :: rest').length := by omega
      have hlo' : ((s :: rest').get ⟨j, hb'⟩).2 ≤ v := by
        simpa only [List.get_cons_succ] using hlo
      have hhi' : v < ((s :: rest').get ⟨j + 1, hb⟩).2 := by
        simpa only [List.get_cons_succ] using hhi
      have hs_le : s.2 ≤ ((s :: rest').get ⟨j, hb'⟩).2 := by
        cases j with
        | zero => exact le_refl _
        | succ k =>
          obtain ⟨hhead, -⟩ :=
            List.pairwise_cons.mp (List.pairwise_cons.mp hmono).2
          exact hhead _ (by
            have := List.get_mem rest' k (by
              simp only [List.length_cons] at hb'
              omega)
            simpa only [List.get_cons_succ] using this)
      have hnv : ¬ v < s.2 := not_lt.mpr (le_trans hs_le hlo')
      simp only [shaderLoop]
      rw [if_neg hnv]
      have := ih s (List.pairwise_cons.mp hmono).2 j hb hb' hlo' hhi'
      rw [this]
      simp only [List.get_cons_succ]

/-- C5 amended: the shader interpolates linearly between the bracketing
stops for values between two thresholds, but it does not clamp: a value
below the first threshold is linearly extrapolated through the first
two stops (mix weight below 0), and a value at or above the last
threshold leaves the output color unassigned (modelled `none`) rather
than taking the last stop's color. -/
theorem color_map_shader_amended (cmap : List ColorStop) (v : ℚ)
    (hmono : List.Pairwise (fun a b => a.2 ≤ b.2) cmap) :
    (∀ s0 s1 rest, cmap = s0 :: s1 :: rest → v < s0.2 →
      shaderMainColor cmap v
        = some (mixRGB s0.1 s1.1 ((v - s0.2) / (s1.2 - s0.2)))) ∧
    (∀ h : cmap ≠ [], (cmap.getLast h).2 ≤ v → shaderMainColor cmap v = none) ∧
    (∀ i, ∀ h : i + 1 < cmap.length,
      (cmap.get ⟨i, by omega⟩).2 ≤ v → v < (cmap.get ⟨i + 1, h⟩).2 →
      shaderMainColor cmap v
        = some (mixRGB (cmap.get ⟨i, by omega⟩).1 (cmap.get ⟨i + 1, h⟩).1
            ((v - (cmap.get ⟨i, by omega⟩).2)
              / ((cmap.get ⟨i + 1, h⟩).2 - (cmap.get ⟨i, by omega⟩).2)))) := by
  refine ⟨?_, ?_, ?_⟩
  · rintro s0 s1 rest rfl hv
    have h01 : s0.2 ≤ s1.2 :=
      (List.pairwise_cons.mp hmono).1 s1 (List.mem_cons_self s1 rest)
    simp only [shaderMainColor, shaderLoop]
    rw [if_pos (lt_of_lt_of_le hv h01)]
  · intro h hlast
    cases cmap with
    | nil => rfl
    | cons s0 rest =>
      show shaderLoop s0 v rest = none
      refine shaderLoop_none rest s0 v fun x hx => ?_
      exact le_trans
        (pairwise_le_getLast (s0 :: rest) h hmono x (List.mem_cons_of_mem s0 hx))
        hlast
  · intro i h hlo hhi
    cases cmap with
    | nil => simp at h
    | cons s0 rest =>
      exact shaderLoop_bracket rest s0 v hmono i h (by omega) hlo hhi

/-- Witness for the amended C5: on the two-stop map with thresholds 0
and 1, the value 1/2 is interpolated to mid gray. -/
theorem color_map_shader_amended_witness :
    shaderMainColor [(((0 : ℚ), 0, 0), (0 : ℚ)), (((1 : ℚ), 1, 1), 1)] (1 / 2)
      = some ((1 : ℚ) / 2, 1 / 2, 1 / 2) := by
  have hmono : List.Pairwise (fun a b => (a : ColorStop).2 ≤ b.2)
      [(((0 : ℚ), 0, 0), (0 : ℚ)), (((1 : ℚ), 1, 1), 1)] := by
    refine List.Pairwise.cons ?_ (List.Pairwise.cons (by simp) List.Pairwise.nil)
    intro x hx
    simp only [List.mem_singleton] at hx
    subst hx
    show (0 : ℚ) ≤ 1
    norm_num
  have h := (color_map_shader_amended
    [(((0 : ℚ), 0, 0), (0 : ℚ)), (((1 : ℚ), 1, 1), 1)] (1 / 2) hmono).2.2
    0 (by simp) (by show (0 : ℚ) ≤ 1 / 2; norm_num)
    (by show (1 : ℚ) / 2 < 1; norm_num)
  rw [h]
  show some (mixRGB ((0 : ℚ), 0, 0) ((1 : ℚ), 1, 1) (((1 : ℚ) / 2 - 0) / (1 - 0)))
      = some ((1 : ℚ) / 2, 1 / 2, 1 / 2)
  unfold mixRGB
  norm_num
